import Mathlib

/-!
# Verification of the libyang input layer and LYB framing core

A shallow embedding, in Lean 4, of the input-handle operations of
`src/in.c` (handle creation, bounds-checked read/skip, the function-start
mark, reset), the data-parser helper checks of `src/in.c`
(`lyd_parser_check_schema`, `lyd_parser_create_term`,
`lyd_parser_create_meta`), and the LYB binary-format constants of
`src/lyb.h`, together with theorems settling the specified behaviour.

Pointers into the mapped or in-memory data are modelled as natural-number
offsets; the `method` union (fd / FILE / filepath) is modelled as a single
numeric source id, since none of the verified operations inspect it beyond
copying it around.  Machine integers (`size_t`) are modelled as `Nat`; the
C expressions subtracting pointers appear verbatim with truncating `Nat`
subtraction, which agrees with the C values under the handle invariants
stated in the theorems.
-/

/-- Error codes of libyang (`LY_ERR`), restricted to the values the embedded
functions produce. -/
inductive LY_ERR where
  | LY_SUCCESS
  | LY_EMEM
  | LY_ESYS
  | LY_EINVAL
  | LY_EVALID
  | LY_EDENIED
deriving DecidableEq, Repr

/-- Input-handle kinds (`LY_IN_TYPE`). -/
inductive LY_IN_TYPE where
  | LY_IN_ERROR
  | LY_IN_FILEPATH
  | LY_IN_FILE
  | LY_IN_FD
  | LY_IN_MEMORY
deriving DecidableEq, Repr

/-- The input handle `struct ly_in` of `in.c`: the handle type, the
`method` union collapsed to a numeric source id, the `start`, `current`
and `func_start` data pointers (as offsets), and the mapped `length`
(0 for memory inputs, which are NUL-terminated strings). -/
structure ly_in where
  type : LY_IN_TYPE
  method : Nat
  start : Nat
  current : Nat
  func_start : Nat
  length : Nat
deriving DecidableEq, Repr

/-- `ly_in_read` of `in.c`: fails with `LY_EDENIED` when the handle has a
nonzero mapped length and fewer than `count` bytes remain between
`current` and the end of the mapping; otherwise advances `current` by
`count`.  The `memcpy` into the caller's buffer is not modelled (the
verified claims concern the error outcome and the position only). -/
def ly_in_read (i : ly_in) (count : Nat) : LY_ERR × ly_in :=
  if i.length ≠ 0 ∧ i.length - (i.current - i.start) < count then
    (LY_ERR.LY_EDENIED, i)
  else
    (LY_ERR.LY_SUCCESS, { i with current := i.current + count })

/-- `ly_in_skip` of `in.c`: identical bounds check to `ly_in_read`, then
advances `current` by `count`. -/
def ly_in_skip (i : ly_in) (count : Nat) : LY_ERR × ly_in :=
  if i.length ≠ 0 ∧ i.length - (i.current - i.start) < count then
    (LY_ERR.LY_EDENIED, i)
  else
    (LY_ERR.LY_SUCCESS, { i with current := i.current + count })

/-- `ly_in_parsed` of `in.c`: bytes consumed since the function-start
mark, `in->current - in->func_start`. -/
def ly_in_parsed (i : ly_in) : Nat :=
  i.current - i.func_start

/-- `ly_in_reset` of `in.c`: `in->current = in->func_start = in->start`,
always returning `LY_SUCCESS` (the NULL-argument guard is outside the
model: the embedding only ranges over non-NULL handles). -/
def ly_in_reset (i : ly_in) : LY_ERR × ly_in :=
  (LY_ERR.LY_SUCCESS, { i with current := i.start, func_start := i.start })

/-- `ly_in_new_memory` of `in.c`: a fresh zero-initialised handle of type
`LY_IN_MEMORY` with `start = current = func_start` at the string and the
`length` field left 0 by `calloc`. -/
def ly_in_new_memory : ly_in :=
  { type := LY_IN_TYPE.LY_IN_MEMORY, method := 0,
    start := 0, current := 0, func_start := 0, length := 0 }

/-- Bytes remaining in the underlying source of a handle, for a source
whose total size (from `start`) is `srcLen`.  For fd/file/filepath
handles the mapping covers the whole source, so `srcLen = i.length`; for
memory handles `srcLen` is the string length while `i.length = 0`. -/
def ly_in_remaining (srcLen : Nat) (i : ly_in) : Nat :=
  srcLen - (i.current - i.start)

/-- The counterexample handle for claim C1: a memory input over a 2-byte
string, exactly as `ly_in_new_memory` builds it. -/
def c1_mem_in : ly_in := ly_in_new_memory

/-- C1 (counterexample): the claim states that for *every* input source
handle — memory buffers included — reading or skipping `n` bytes with
fewer than `n` bytes remaining fails with an end-of-input error and
leaves the position unchanged.  On a memory handle over a 2-byte source,
with 2 bytes remaining, reading 5 bytes nevertheless *succeeds* and
advances the position by 5: memory handles have `length = 0` and
`ly_in_read`/`ly_in_skip` skip the bounds check entirely. -/
theorem ly_in_read_memory_unbounded_cex :
    c1_mem_in.type = LY_IN_TYPE.LY_IN_MEMORY ∧
    ly_in_remaining 2 c1_mem_in < 5 ∧
    (ly_in_read c1_mem_in 5).1 = LY_ERR.LY_SUCCESS ∧
    (ly_in_read c1_mem_in 5).2.current = c1_mem_in.current + 5 ∧
    (ly_in_skip c1_mem_in 5).1 = LY_ERR.LY_SUCCESS ∧
    (ly_in_skip c1_mem_in 5).2.current = c1_mem_in.current + 5 := by
  decide

/-- C1 (amended): on a handle with a nonzero mapped `length` (fd, file and
filepath handles, whose `length` is the size of the mapped source),
reading or skipping `n` bytes when fewer than `n` bytes remain fails with
`LY_EDENIED` and leaves the handle — in particular the current position —
unchanged, and otherwise succeeds advancing the position by exactly `n`;
on a handle with `length = 0` (memory buffers) the bounds check is
skipped, so reading or skipping always succeeds and advances the position
by `n`, even past the end of the source. -/
theorem ly_in_read_skip_bounds (i : ly_in) (n : Nat) :
    (i.length ≠ 0 → i.length - (i.current - i.start) < n →
      ly_in_read i n = (LY_ERR.LY_EDENIED, i) ∧
      ly_in_skip i n = (LY_ERR.LY_EDENIED, i)) ∧
    (i.length ≠ 0 → n ≤ i.length - (i.current - i.start) →
      ly_in_read i n = (LY_ERR.LY_SUCCESS, { i with current := i.current + n }) ∧
      ly_in_skip i n = (LY_ERR.LY_SUCCESS, { i with current := i.current + n })) ∧
    (i.length = 0 →
      ly_in_read i n = (LY_ERR.LY_SUCCESS, { i with current := i.current + n }) ∧
      ly_in_skip i n = (LY_ERR.LY_SUCCESS, { i with current := i.current + n })) := by
  refine ⟨fun h0 hlt => ?_, fun h0 hle => ?_, fun h0 => ?_⟩
  · simp [ly_in_read, ly_in_skip, h0, hlt]
  · simp [ly_in_read, ly_in_skip, h0, Nat.not_lt.mpr hle]
  · simp [ly_in_read, ly_in_skip, h0]

/-- Witness for the amended C1 theorem at a concrete mapped handle of
length 3 with 2 bytes remaining: reading 5 fails, reading 2 succeeds. -/
theorem ly_in_read_skip_bounds_witness :
    (ly_in_read ⟨LY_IN_TYPE.LY_IN_FD, 7, 0, 1, 0, 3⟩ 5
        = (LY_ERR.LY_EDENIED, ⟨LY_IN_TYPE.LY_IN_FD, 7, 0, 1, 0, 3⟩) ∧
      ly_in_skip ⟨LY_IN_TYPE.LY_IN_FD, 7, 0, 1, 0, 3⟩ 5
        = (LY_ERR.LY_EDENIED, ⟨LY_IN_TYPE.LY_IN_FD, 7, 0, 1, 0, 3⟩)) ∧
    (ly_in_read ⟨LY_IN_TYPE.LY_IN_FD, 7, 0, 1, 0, 3⟩ 2
        = (LY_ERR.LY_SUCCESS, ⟨LY_IN_TYPE.LY_IN_FD, 7, 0, 3, 0, 3⟩) ∧
      ly_in_skip ⟨LY_IN_TYPE.LY_IN_FD, 7, 0, 1, 0, 3⟩ 2
        = (LY_ERR.LY_SUCCESS, ⟨LY_IN_TYPE.LY_IN_FD, 7, 0, 3, 0, 3⟩)) :=
  ⟨(ly_in_read_skip_bounds ⟨LY_IN_TYPE.LY_IN_FD, 7, 0, 1, 0, 3⟩ 5).1
      (by decide) (by decide),
   (ly_in_read_skip_bounds ⟨LY_IN_TYPE.LY_IN_FD, 7, 0, 1, 0, 3⟩ 2).2.1
      (by decide) (by decide)⟩

/-- C7: `ly_in_parsed` returns exactly the bytes consumed since the
function-start mark: it is `current - func_start`; immediately after the
mark is (re)set — at handle creation or by `ly_in_reset` — it returns 0;
a successful `ly_in_read`/`ly_in_skip` of `n` bytes increases it by
exactly `n`; and a failed read or skip leaves the handle, hence the
returned value, unchanged. -/
theorem ly_in_parsed_spec (i : ly_in) (n : Nat) (hinv : i.func_start ≤ i.current) :
    ly_in_parsed i = i.current - i.func_start ∧
    ly_in_parsed ly_in_new_memory = 0 ∧
    ly_in_parsed (ly_in_reset i).2 = 0 ∧
    ((ly_in_read i n).1 = LY_ERR.LY_SUCCESS →
      ly_in_parsed (ly_in_read i n).2 = ly_in_parsed i + n) ∧
    ((ly_in_read i n).1 ≠ LY_ERR.LY_SUCCESS → (ly_in_read i n).2 = i) ∧
    ((ly_in_skip i n).1 = LY_ERR.LY_SUCCESS →
      ly_in_parsed (ly_in_skip i n).2 = ly_in_parsed i + n) ∧
    ((ly_in_skip i n).1 ≠ LY_ERR.LY_SUCCESS → (ly_in_skip i n).2 = i) := by
  refine ⟨rfl, rfl, by simp [ly_in_parsed, ly_in_reset], ?_, ?_, ?_, ?_⟩ <;>
    intro h <;>
    by_cases hc : i.length ≠ 0 ∧ i.length - (i.current - i.start) < n <;>
    simp [ly_in_read, ly_in_skip, hc, ly_in_parsed] at h ⊢ <;>
    omega

/-- Witness for C7 at a concrete fd handle (mark at offset 1, current at
offset 2, mapped length 5): a successful read of 2 raises the parsed
count from 1 to 3. -/
theorem ly_in_parsed_spec_witness :
    (⟨LY_IN_TYPE.LY_IN_FD, 4, 0, 2, 1, 5⟩ : ly_in).func_start ≤
      (⟨LY_IN_TYPE.LY_IN_FD, 4, 0, 2, 1, 5⟩ : ly_in).current ∧
    ((ly_in_read ⟨LY_IN_TYPE.LY_IN_FD, 4, 0, 2, 1, 5⟩ 2).1 = LY_ERR.LY_SUCCESS →
      ly_in_parsed (ly_in_read ⟨LY_IN_TYPE.LY_IN_FD, 4, 0, 2, 1, 5⟩ 2).2 =
        ly_in_parsed ⟨LY_IN_TYPE.LY_IN_FD, 4, 0, 2, 1, 5⟩ + 2) :=
  ⟨by decide,
   (ly_in_parsed_spec ⟨LY_IN_TYPE.LY_IN_FD, 4, 0, 2, 1, 5⟩ 2 (by decide)).2.2.2.1⟩

/-- C9: `ly_in_reset` on any (non-NULL) handle always succeeds, sets the
current position and the function-start mark back to the start of the
data, leaves the handle type, underlying source and length unchanged,
makes `ly_in_parsed` return 0, and is idempotent: resetting twice is the
same as resetting once. -/
theorem ly_in_reset_spec (i : ly_in) :
    (ly_in_reset i).1 = LY_ERR.LY_SUCCESS ∧
    (ly_in_reset i).2.current = i.start ∧
    (ly_in_reset i).2.func_start = i.start ∧
    (ly_in_reset i).2.type = i.type ∧
    (ly_in_reset i).2.method = i.method ∧
    (ly_in_reset i).2.start = i.start ∧
    (ly_in_reset i).2.length = i.length ∧
    ly_in_parsed (ly_in_reset i).2 = 0 ∧
    ly_in_reset (ly_in_reset i).2 = ly_in_reset i := by
  simp [ly_in_reset, ly_in_parsed]

/-!
## The data-parser helpers of `in.c`

Schema node kinds (`nodetype` is a single `LYS_*` enumeration value in the
compiled schema; the C tests `nodetype & (LYS_RPC | LYS_ACTION)` and
`nodetype == LYS_NOTIF` become membership tests on the enumeration), and
the parser context `struct lyd_ctx`.  The C bit tests on
`parse_options`/`int_opts`/`flags` and the NULL test on `op_node` are
embedded as one `Bool` per tested bit:
`parse_no_state = (parse_options & LYD_PARSE_NO_STATE) != 0`,
`parse_only = (parse_options & LYD_PARSE_ONLY) != 0`,
`int_rpc/int_reply/int_notif` the `LYD_INTOPT_*` bits of `int_opts`,
`config_r = (snode->flags & LYS_CONFIG_R) != 0`, and
`op_node = (lydctx->op_node != NULL)`.  The `node_types`/`meta_types`
sets hold the deferred nodes/metadata as numeric ids (`ly_set` stores
pointers; `ly_set_add` with `list = 1` appends unconditionally).
-/

/-- Schema node kinds (`LYS_*` nodetype values of `tree_schema.h`). -/
inductive lys_nodetype where
  | LYS_CONTAINER
  | LYS_CHOICE
  | LYS_LEAF
  | LYS_LEAFLIST
  | LYS_LIST
  | LYS_ANYXML
  | LYS_ANYDATA
  | LYS_CASE
  | LYS_RPC
  | LYS_ACTION
  | LYS_NOTIF
deriving DecidableEq, Repr

/-- The fields of a compiled schema node (`struct lysc_node`) consulted by
`lyd_parser_check_schema`: its nodetype and its `LYS_CONFIG_R`
(state, config-false) flag. -/
structure lysc_node where
  nodetype : lys_nodetype
  config_r : Bool
deriving DecidableEq, Repr

/-- The fields of the parser context (`struct lyd_ctx`) consulted by the
embedded helpers; see the section comment for the bit-to-Bool mapping. -/
structure lyd_ctx where
  parse_no_state : Bool
  parse_only : Bool
  int_rpc : Bool
  int_reply : Bool
  int_notif : Bool
  op_node : Bool
  node_types : List Nat
  meta_types : List Nat
deriving DecidableEq, Repr

/-- `lyd_parser_check_schema` of `in.c`: the no-state check first
(`LYD_PARSE_NO_STATE` option against the node's `LYS_CONFIG_R` flag),
then the operation-context checks for RPC/action and notification
nodes. -/
def lyd_parser_check_schema (lydctx : lyd_ctx) (snode : lysc_node) : LY_ERR :=
  if lydctx.parse_no_state && snode.config_r then
    LY_ERR.LY_EVALID
  else if snode.nodetype == lys_nodetype.LYS_RPC ||
      snode.nodetype == lys_nodetype.LYS_ACTION then
    if lydctx.int_rpc || lydctx.int_reply then
      if lydctx.op_node then LY_ERR.LY_EVALID else LY_ERR.LY_SUCCESS
    else
      LY_ERR.LY_EVALID
  else if snode.nodetype == lys_nodetype.LYS_NOTIF then
    if lydctx.int_notif then
      if lydctx.op_node then LY_ERR.LY_EVALID else LY_ERR.LY_SUCCESS
    else
      LY_ERR.LY_EVALID
  else
    LY_ERR.LY_SUCCESS

/-- The operation-context portion of `lyd_parser_check_schema` (the code
after the no-state check), named separately so the placement of the
no-state check can be stated. -/
def lyd_parser_check_schema_op (lydctx : lyd_ctx) (snode : lysc_node) : LY_ERR :=
  if snode.nodetype == lys_nodetype.LYS_RPC ||
      snode.nodetype == lys_nodetype.LYS_ACTION then
    if lydctx.int_rpc || lydctx.int_reply then
      if lydctx.op_node then LY_ERR.LY_EVALID else LY_ERR.LY_SUCCESS
    else
      LY_ERR.LY_EVALID
  else if snode.nodetype == lys_nodetype.LYS_NOTIF then
    if lydctx.int_notif then
      if lydctx.op_node then LY_ERR.LY_EVALID else LY_ERR.LY_SUCCESS
    else
      LY_ERR.LY_EVALID
  else
    LY_ERR.LY_SUCCESS

/-- C2: provided the no-state check does not fire, the per-node check of
`lyd_parser_check_schema` fails with the validation error `LY_EVALID` if
and only if the node is an RPC/action while neither RPC nor reply parse
mode was requested, or a notification while notification parse mode was
not requested, or it is an RPC/action/notification in the matching
requested mode but an operation node has already been parsed
(`op_node` set); in every other case it returns `LY_SUCCESS`.  The check
is a pure function of the node and the already-accumulated parser state,
evaluated at the point the node is encountered (nothing is deferred). -/
theorem lyd_parser_check_schema_op_iff (lydctx : lyd_ctx) (snode : lysc_node)
    (hstate : ¬(lydctx.parse_no_state = true ∧ snode.config_r = true)) :
    (lyd_parser_check_schema lydctx snode = LY_ERR.LY_EVALID ↔
      (((snode.nodetype = lys_nodetype.LYS_RPC ∨
          snode.nodetype = lys_nodetype.LYS_ACTION) ∧
        ¬(lydctx.int_rpc = true ∨ lydctx.int_reply = true)) ∨
       (snode.nodetype = lys_nodetype.LYS_NOTIF ∧ ¬lydctx.int_notif = true) ∨
       ((((snode.nodetype = lys_nodetype.LYS_RPC ∨
            snode.nodetype = lys_nodetype.LYS_ACTION) ∧
          (lydctx.int_rpc = true ∨ lydctx.int_reply = true)) ∨
         (snode.nodetype = lys_nodetype.LYS_NOTIF ∧ lydctx.int_notif = true)) ∧
        lydctx.op_node = true))) ∧
    (lyd_parser_check_schema lydctx snode = LY_ERR.LY_SUCCESS ↔
      ¬(((snode.nodetype = lys_nodetype.LYS_RPC ∨
          snode.nodetype = lys_nodetype.LYS_ACTION) ∧
        ¬(lydctx.int_rpc = true ∨ lydctx.int_reply = true)) ∨
       (snode.nodetype = lys_nodetype.LYS_NOTIF ∧ ¬lydctx.int_notif = true) ∨
       ((((snode.nodetype = lys_nodetype.LYS_RPC ∨
            snode.nodetype = lys_nodetype.LYS_ACTION) ∧
          (lydctx.int_rpc = true ∨ lydctx.int_reply = true)) ∨
         (snode.nodetype = lys_nodetype.LYS_NOTIF ∧ lydctx.int_notif = true)) ∧
        lydctx.op_node = true))) := by
  rcases lydctx with ⟨ns, po, ir, irep, inotif, opn, nts, mts⟩
  rcases snode with ⟨nt, cfg⟩
  have h0 : (ns && cfg) = false := by
    cases ns <;> cases cfg <;> simp_all
  cases nt <;> cases ir <;> cases irep <;> cases inotif <;> cases opn <;>
    simp [lyd_parser_check_schema, h0]

/-- Witness for C2: a notification node met while only RPC parse mode was
requested is rejected with `LY_EVALID`. -/
theorem lyd_parser_check_schema_op_iff_witness :
    lyd_parser_check_schema ⟨false, false, true, false, false, false, [], []⟩
        ⟨lys_nodetype.LYS_NOTIF, false⟩ = LY_ERR.LY_EVALID :=
  (lyd_parser_check_schema_op_iff ⟨false, false, true, false, false, false, [], []⟩
      ⟨lys_nodetype.LYS_NOTIF, false⟩ (by decide)).1.mpr (by decide)

/-- C10: with the no-state parse option set, `lyd_parser_check_schema`
rejects every state (`LYS_CONFIG_R`) schema node with `LY_EVALID`,
regardless of the operation-context configuration (mode bits and
`op_node`); and whenever the option is unset or the node is not a state
node, the check's result is exactly that of the operation-context checks
alone — in particular state nodes pass the no-state check when the
option is not given. -/
theorem lyd_parser_check_schema_no_state (lydctx : lyd_ctx) (snode : lysc_node) :
    (lydctx.parse_no_state = true → snode.config_r = true →
      lyd_parser_check_schema lydctx snode = LY_ERR.LY_EVALID) ∧
    (¬(lydctx.parse_no_state = true ∧ snode.config_r = true) →
      lyd_parser_check_schema lydctx snode = lyd_parser_check_schema_op lydctx snode) := by
  constructor
  · intro h1 h2
    simp [lyd_parser_check_schema, h1, h2]
  · intro h
    have h0 : (lydctx.parse_no_state && snode.config_r) = false := by
      cases hn : lydctx.parse_no_state <;> cases hc : snode.config_r <;> simp_all
    simp [lyd_parser_check_schema, lyd_parser_check_schema_op, h0]

/-- Witness for C10: a state node under the no-state option is rejected
even in RPC mode, and a state node without the option takes the
operation-context result. -/
theorem lyd_parser_check_schema_no_state_witness :
    lyd_parser_check_schema ⟨true, false, true, false, false, false, [], []⟩
        ⟨lys_nodetype.LYS_LEAF, true⟩ = LY_ERR.LY_EVALID ∧
    lyd_parser_check_schema ⟨false, false, false, false, false, false, [], []⟩
        ⟨lys_nodetype.LYS_LEAF, true⟩ =
      lyd_parser_check_schema_op ⟨false, false, false, false, false, false, [], []⟩
        ⟨lys_nodetype.LYS_LEAF, true⟩ :=
  ⟨(lyd_parser_check_schema_no_state ⟨true, false, true, false, false, false, [], []⟩
      ⟨lys_nodetype.LYS_LEAF, true⟩).1 (by decide) (by decide),
   (lyd_parser_check_schema_no_state ⟨false, false, false, false, false, false, [], []⟩
      ⟨lys_nodetype.LYS_LEAF, true⟩).2 (by decide)⟩

/-- `ly_set_add` with the `list` option (value 1), as called by the
parser helpers: appends the object to the set unconditionally. -/
def ly_set_add (s : List Nat) (obj : Nat) : List Nat :=
  s ++ [obj]

/-- `lyd_parser_create_term` of `in.c`.  The call to `lyd_create_term`
(in `tree_data.c`, outside this repository slice) is abstracted as its
outcome `createRes`: either an error, or the created node together with
the `incomplete` flag it reported.  On success, the node is recorded in
the deferred `node_types` set exactly when the value was reported
incomplete and `LYD_PARSE_ONLY` is not set. -/
def lyd_parser_create_term (lydctx : lyd_ctx)
    (createRes : Except LY_ERR (Nat × Bool)) : Except LY_ERR (lyd_ctx × Nat) :=
  match createRes with
  | Except.error e => Except.error e
  | Except.ok (node, incomplete) =>
      if incomplete && !lydctx.parse_only then
        Except.ok ({ lydctx with node_types := ly_set_add lydctx.node_types node }, node)
      else
        Except.ok (lydctx, node)

/-- `lyd_parser_create_meta` of `in.c`.  The call to `lyd_create_meta` is
abstracted as its outcome `createRes` (error, or the created metadata id
with its `incomplete` flag); the first-metadata bookkeeping of the C
function concerns only which pointer is handed back and is not modelled.
On success, the metadata is recorded in the deferred `meta_types` set
exactly when its value was reported incomplete and `LYD_PARSE_ONLY` is
not set. -/
def lyd_parser_create_meta (lydctx : lyd_ctx)
    (createRes : Except LY_ERR (Nat × Bool)) : Except LY_ERR (lyd_ctx × Nat) :=
  match createRes with
  | Except.error e => Except.error e
  | Except.ok (m, incomplete) =>
      if incomplete && !lydctx.parse_only then
        Except.ok ({ lydctx with meta_types := ly_set_add lydctx.meta_types m }, m)
      else
        Except.ok (lydctx, m)

/-- The parser context of the C3 counterexample: `LYD_PARSE_ONLY` set,
both deferred sets empty. -/
def c3_ctx : lyd_ctx :=
  { parse_no_state := false, parse_only := true, int_rpc := false,
    int_reply := false, int_notif := false, op_node := false,
    node_types := [], meta_types := [] }

/-- C3 (counterexample): the claim states that every term node (and every
metadata value) whose value creation reports it incomplete is added to
the deferred resolution set.  With the `LYD_PARSE_ONLY` option set, a
term node and a metadata value both reported incomplete are *not* added:
both deferred sets stay empty. -/
theorem lyd_parser_create_parse_only_cex :
    lyd_parser_create_term c3_ctx (Except.ok (7, true)) = Except.ok (c3_ctx, 7) ∧
    lyd_parser_create_meta c3_ctx (Except.ok (9, true)) = Except.ok (c3_ctx, 9) ∧
    c3_ctx.parse_only = true ∧
    c3_ctx.node_types = [] ∧ c3_ctx.meta_types = [] :=
  ⟨rfl, rfl, rfl, rfl, rfl⟩

/-- C3 (amended): when value creation succeeds, the created term node is
added to the deferred `node_types` set exactly when its value was
reported incomplete *and* the `LYD_PARSE_ONLY` option is not set (under
`LYD_PARSE_ONLY` no resolution pass runs, so nothing is deferred), and
likewise for metadata and the `meta_types` set; complete values are
never added, the other context fields are untouched, and a failing value
creation propagates its error without touching either set. -/
theorem lyd_parser_create_deferred (lydctx : lyd_ctx) (node m : Nat)
    (inc : Bool) (e : LY_ERR) :
    lyd_parser_create_term lydctx (Except.ok (node, inc)) =
      Except.ok ((if inc = true ∧ lydctx.parse_only = false then
          { lydctx with node_types := ly_set_add lydctx.node_types node }
        else lydctx), node) ∧
    lyd_parser_create_meta lydctx (Except.ok (m, inc)) =
      Except.ok ((if inc = true ∧ lydctx.parse_only = false then
          { lydctx with meta_types := ly_set_add lydctx.meta_types m }
        else lydctx), m) ∧
    lyd_parser_create_term lydctx (Except.error e) = Except.error e ∧
    lyd_parser_create_meta lydctx (Except.error e) = Except.error e := by
  refine ⟨?_, ?_, rfl, rfl⟩ <;>
    cases hi : inc <;> cases hp : lydctx.parse_only <;>
      simp [lyd_parser_create_term, lyd_parser_create_meta, hi, hp]

/-!
## Input-handle creation over mapped sources

`ly_in_new_fd` maps the whole file behind a descriptor via `ly_mmap`
(defined in `compat.c`, outside this repository slice) and rejects empty
files; `ly_in_new_file` and `ly_in_new_filepath` are built on top of it.
The file system is modelled as a table from descriptors to contents, and
the number of live mappings is threaded through explicitly so that leak
freedom on the failure paths can be stated.
-/

/-- Modelled from the spec: `ly_mmap` (in `compat.c`, not under this
repository slice) maps the whole file behind a descriptor, reporting its
length; for an empty (zero-byte) file it acquires no mapping and yields a
null address.  Result: (file length, mapped address if any, updated
count of live mappings). -/
def ly_mmap (content : List Nat) (mapCount : Nat) : Nat × Option Nat × Nat :=
  (content.length,
   if content.length = 0 then none else some 0,
   if content.length = 0 then mapCount else mapCount + 1)

/-- `ly_in_new_fd` of `in.c`: rejects a negative descriptor, maps the
file, rejects an empty file ("Empty input file.", `LY_EINVAL`), and
otherwise builds an `LY_IN_FD` handle with `current = start = func_start`
at the mapping and `length` the mapped length. -/
def ly_in_new_fd (files : Int → List Nat) (fd : Int) (mapCount : Nat) :
    Except LY_ERR ly_in × Nat :=
  if fd < 0 then
    (Except.error LY_ERR.LY_EINVAL, mapCount)
  else
    match ly_mmap (files fd) mapCount with
    | (_, none, c) => (Except.error LY_ERR.LY_EINVAL, c)
    | (len, some addr, c) =>
        (Except.ok { type := LY_IN_TYPE.LY_IN_FD, method := fd.toNat,
                     start := addr, current := addr, func_start := addr,
                     length := len }, c)

/-- `ly_in_new_file` of `in.c`: delegates to `ly_in_new_fd` on
`fileno(f)` and, on success, converts the handle type to `LY_IN_FILE`. -/
def ly_in_new_file (files : Int → List Nat) (fd : Int) (mapCount : Nat) :
    Except LY_ERR ly_in × Nat :=
  match ly_in_new_fd files fd mapCount with
  | (Except.ok i, c) => (Except.ok { i with type := LY_IN_TYPE.LY_IN_FILE }, c)
  | r => r

/-- `ly_in_new_filepath` of `in.c`: opens the path read-only (`openRes`
is the descriptor `open` returned, or `none` on failure, which yields
`LY_ESYS`), delegates to `ly_in_new_fd`, propagates its error, and on
success converts the handle type to `LY_IN_FILEPATH`. -/
def ly_in_new_filepath (files : Int → List Nat) (openRes : Option Int)
    (mapCount : Nat) : Except LY_ERR ly_in × Nat :=
  match openRes with
  | none => (Except.error LY_ERR.LY_ESYS, mapCount)
  | some fd =>
      match ly_in_new_fd files fd mapCount with
      | (Except.ok i, c) => (Except.ok { i with type := LY_IN_TYPE.LY_IN_FILEPATH }, c)
      | r => r

/-- C8: creating an input handle from a (valid) file descriptor, an open
file, or a filepath whose underlying file is empty fails with
`LY_EINVAL` and produces no handle, and no mapping remains held on
return (for a zero-byte file `ly_mmap` acquires none, so the live-mapping
count is exactly what it was before the attempt). -/
theorem ly_in_new_empty_file (files : Int → List Nat) (fd : Int) (mapCount : Nat)
    (hfd : 0 ≤ fd) (hempty : (files fd).length = 0) :
    ly_in_new_fd files fd mapCount = (Except.error LY_ERR.LY_EINVAL, mapCount) ∧
    ly_in_new_file files fd mapCount = (Except.error LY_ERR.LY_EINVAL, mapCount) ∧
    ly_in_new_filepath files (some fd) mapCount =
      (Except.error LY_ERR.LY_EINVAL, mapCount) := by
  have hneg : ¬fd < 0 := by omega
  have h1 : ly_in_new_fd files fd mapCount = (Except.error LY_ERR.LY_EINVAL, mapCount) := by
    simp [ly_in_new_fd, hneg, ly_mmap, hempty]
  exact ⟨h1, by simp [ly_in_new_file, h1], by simp [ly_in_new_filepath, h1]⟩

/-- Witness for C8 at descriptor 3 of a file table whose every file is
empty. -/
theorem ly_in_new_empty_file_witness :
    (0 : Int) ≤ 3 ∧
    ly_in_new_fd (fun _ => []) 3 0 = (Except.error LY_ERR.LY_EINVAL, 0) :=
  ⟨by decide, (ly_in_new_empty_file (fun _ => []) 3 0 (by decide) (by decide)).1⟩

/-!
## LYB format constants (`lyb.h`) and the schema-hash byte

The constants below are the `#define`s of `src/lyb.h`.  The function
computing a hash byte for a given collision id lives in `printer_lyb.c`
and `parser_lyb.c`, outside this repository slice, and is modelled from
the spec using the constants of `lyb.h`.
-/

/-- `LYB_HASH_BITS` of `lyb.h`: bits of the whole hash, collision id
included. -/
def LYB_HASH_BITS : Nat := 8

/-- `LYB_HASH_MASK` of `lyb.h`: mask of the hash field at collision
id 0. -/
def LYB_HASH_MASK : Nat := 0x7f

/-- `LYB_HASH_COLLISION_ID` of `lyb.h`: the collision-id marker bit,
shifted right by the collision id. -/
def LYB_HASH_COLLISION_ID : Nat := 0x80

/-- `LYB_SIZE_BYTES` of `lyb.h`: bytes reserved for one data chunk's
size. -/
def LYB_SIZE_BYTES : Nat := 1

/-- `LYB_SIZE_MAX` of `lyb.h`: maximum size written into
`LYB_SIZE_BYTES` (`UINT8_MAX`). -/
def LYB_SIZE_MAX : Nat := 255

/-- `LYB_INCHUNK_BYTES` of `lyb.h`: bytes reserved for one chunk's
inner-chunk count. -/
def LYB_INCHUNK_BYTES : Nat := 1

/-- `LYB_INCHUNK_MAX` of `lyb.h`: maximum inner-chunk count written into
`LYB_INCHUNK_BYTES` (`UINT8_MAX`). -/
def LYB_INCHUNK_MAX : Nat := 255

/-- `LYB_META_BYTES` of `lyb.h`: metadata bytes at the head of each
subtree. -/
def LYB_META_BYTES : Nat := LYB_INCHUNK_BYTES + LYB_SIZE_BYTES

/-- Modelled from the spec: the hash byte a node-identity hash carries at
collision id `k` (computed by `lyb_hash` in `printer_lyb.c`, outside this
repository slice): the truncated structural hash `h` is masked to the
shrunken field `LYB_HASH_MASK >> k` and the unary collision-id marker
`LYB_HASH_COLLISION_ID >> k` is set. -/
def lyb_hash_byte (k : Nat) (h : Nat) : Nat :=
  (h &&& (LYB_HASH_MASK >>> k)) ||| (LYB_HASH_COLLISION_ID >>> k)

/-- `m ||| 2^j = 2^j + m` when `m` fits below bit `j`. -/
theorem lor_two_pow_of_lt {j m : Nat} (hm : m < 2 ^ j) : m ||| 2 ^ j = 2 ^ j + m := by
  apply Nat.eq_of_testBit_eq
  intro i
  rcases lt_trichotomy i j with hij | rfl | hij
  · rw [Nat.testBit_lor, Nat.testBit_two_pow_of_ne (by omega), Bool.or_false,
      Nat.testBit_two_pow_add_gt hij]
  · rw [Nat.testBit_lor, Nat.testBit_two_pow_add_eq, Nat.testBit_lt_two_pow hm,
      Nat.testBit_two_pow_self, Bool.false_or, Bool.not_false]
  · have h1 : m.testBit i = false :=
      Nat.testBit_lt_two_pow (lt_trans hm (Nat.pow_lt_pow_right (by norm_num) hij))
    have h3 : (2 ^ j + m).testBit i = false := Nat.testBit_lt_two_pow (by
      have hp : 2 ^ j * 2 = 2 ^ (j + 1) := (Nat.pow_succ 2 j).symm
      have hle : 2 ^ (j + 1) ≤ 2 ^ i := Nat.pow_le_pow_right (by norm_num) (by omega)
      omega)
    rw [Nat.testBit_lor, h1, Nat.testBit_two_pow_of_ne (by omega), h3, Bool.or_false]

/-- The shifted mask constant of `lyb.h` in closed form. -/
theorem lyb_hash_mask_shift : ∀ k, k < 8 → LYB_HASH_MASK >>> k = 2 ^ (7 - k) - 1 := by
  decide

/-- The shifted collision-id marker constant of `lyb.h` in closed form. -/
theorem lyb_hash_marker_shift : ∀ k, k < 8 → LYB_HASH_COLLISION_ID >>> k = 2 ^ (7 - k) := by
  decide

/-- The hash byte in arithmetic form: marker bit plus truncated hash. -/
theorem lyb_hash_byte_eq (k h : Nat) (hk : k < 8) :
    lyb_hash_byte k h = 2 ^ (7 - k) + h % 2 ^ (7 - k) := by
  unfold lyb_hash_byte
  rw [lyb_hash_mask_shift k hk, lyb_hash_marker_shift k hk,
    Nat.and_pow_two_sub_one_eq_mod]
  exact lor_two_pow_of_lt (Nat.mod_lt _ (Nat.pos_pow_of_pos _ (by norm_num)))

/-- C4: for every collision id `k` below the 8-bit hash width the hash
byte is an 8-bit value whose top `k` bits are 0, whose bit `7 - k` is 1,
and whose low `7 - k` bits hold the truncated structural hash: dividing
by `2 ^ (7 - k)` leaves exactly 1 (the unary marker, one place further
right for each increment of `k`) and the remainder is the hash truncated
to the shrunken field.  Collision id 0 yields `1xxxxxxx` with a 7-bit
hash field; the usable field shrinks by one bit per increment, so the
scheme bounds the collision id by the hash width. -/
theorem lyb_hash_byte_unary (k h : Nat) (hk : k < LYB_HASH_BITS) :
    lyb_hash_byte k h < 2 ^ LYB_HASH_BITS ∧
    lyb_hash_byte k h / 2 ^ (7 - k) = 1 ∧
    lyb_hash_byte k h % 2 ^ (7 - k) = h % 2 ^ (7 - k) ∧
    Nat.testBit (lyb_hash_byte k h) (7 - k) = true ∧
    (∀ i, 7 - k < i → Nat.testBit (lyb_hash_byte k h) i = false) := by
  have hk8 : k < 8 := hk
  have heq := lyb_hash_byte_eq k h hk8
  have hm : h % 2 ^ (7 - k) < 2 ^ (7 - k) :=
    Nat.mod_lt _ (Nat.pos_pow_of_pos _ (by norm_num))
  have hsucc : 2 ^ (7 - k) * 2 = 2 ^ (7 - k + 1) := (Nat.pow_succ 2 (7 - k)).symm
  have hlt : lyb_hash_byte k h < 2 ^ (7 - k + 1) := by omega
  refine ⟨?_, ?_, ?_, ?_, ?_⟩
  · calc lyb_hash_byte k h < 2 ^ (7 - k + 1) := hlt
      _ ≤ 2 ^ LYB_HASH_BITS := Nat.pow_le_pow_right (by norm_num)
          (by show 7 - k + 1 ≤ 8; omega)
  · rw [heq, Nat.add_comm, Nat.add_div_right _ (Nat.pos_pow_of_pos _ (by norm_num)),
      Nat.div_eq_of_lt hm]
  · rw [heq, Nat.add_mod_left, Nat.mod_eq_of_lt hm]
  · rw [heq, Nat.testBit_two_pow_add_eq, Nat.testBit_lt_two_pow hm, Bool.not_false]
  · intro i hi
    exact Nat.testBit_lt_two_pow
      (lt_of_lt_of_le hlt (Nat.pow_le_pow_right (by norm_num) (by omega)))

/-- Witness for C4 at collision id 2 and structural hash `0xAB`: the
byte is `0010 1011`. -/
theorem lyb_hash_byte_unary_witness :
    (2 < LYB_HASH_BITS ∧ lyb_hash_byte 2 0xAB < 2 ^ LYB_HASH_BITS) ∧
    lyb_hash_byte 2 0xAB / 2 ^ 5 = 1 :=
  ⟨⟨by decide, (lyb_hash_byte_unary 2 0xAB (by decide)).1⟩,
   (lyb_hash_byte_unary 2 0xAB (by decide)).2.1⟩

/-!
## LYB chunk splitting and the subtree frame header

The writer that splits an oversized payload into chunks lives in
`printer_lyb.c`, outside this repository slice; it is modelled from the
spec on top of the constants of `lyb.h`.  `splitChunks` cuts a payload
into maximal chunks of at most `LYB_SIZE_MAX` bytes (the recursion is
driven by an explicit counter, `payload.length`, which bounds the number
of cuts); `writeChunked` emits a subtree frame: the first chunk's length
byte, the inner-chunk-count byte, the first chunk, then each continuation
chunk preceded by its own length byte. -/

/-- Cut `p` into chunks of at most `LYB_SIZE_MAX` bytes; `n` bounds the
number of cuts. -/
def splitChunksGo : Nat → List Nat → List (List Nat)
  | 0, p => [p]
  | n + 1, p =>
      if p.length ≤ LYB_SIZE_MAX then [p]
      else p.take LYB_SIZE_MAX :: splitChunksGo n (p.drop LYB_SIZE_MAX)

/-- Modelled from the spec: the chunks of a subtree payload, each at most
`LYB_SIZE_MAX` bytes, physically sequential. -/
def splitChunks (p : List Nat) : List (List Nat) :=
  splitChunksGo p.length p

/-- Modelled from the spec: one encoded subtree frame —
`[length:1][inner-chunk-count:1][first chunk]`, followed by each
continuation chunk with its own length prefix. -/
def writeChunked (p : List Nat) : List Nat :=
  match splitChunks p with
  | [] => []
  | c :: cs =>
      c.length :: cs.length :: (c ++ (cs.map (fun c2 => c2.length :: c2)).join)

/-- The chunks always concatenate back to the payload. -/
theorem splitChunksGo_join : ∀ (n : Nat) (p : List Nat),
    (splitChunksGo n p).join = p := by
  intro n
  induction n with
  | zero => intro p; simp [splitChunksGo]
  | succ n ih =>
      intro p
      by_cases h : p.length ≤ LYB_SIZE_MAX
      · simp [splitChunksGo, h]
      · simp [splitChunksGo, h, ih]

/-- The chunk list is never empty. -/
theorem splitChunksGo_ne_nil : ∀ (n : Nat) (p : List Nat),
    splitChunksGo n p ≠ [] := by
  intro n p
  cases n with
  | zero => simp [splitChunksGo]
  | succ n =>
      by_cases h : p.length ≤ LYB_SIZE_MAX <;> simp [splitChunksGo, h]

/-- With enough cut budget every chunk fits `LYB_SIZE_MAX`. -/
theorem splitChunksGo_le : ∀ (n : Nat) (p : List Nat),
    p.length ≤ LYB_SIZE_MAX * n + LYB_SIZE_MAX →
    ∀ c ∈ splitChunksGo n p, c.length ≤ LYB_SIZE_MAX := by
  intro n
  induction n with
  | zero =>
      intro p hp c hc
      simp [splitChunksGo] at hc
      subst hc
      simpa using hp
  | succ n ih =>
      intro p hp c hc
      by_cases h : p.length ≤ LYB_SIZE_MAX
      · simp [splitChunksGo, h] at hc
        subst hc
        exact h
      · simp [splitChunksGo, h] at hc
        rcases hc with hc | hc
        · subst hc
          simp [LYB_SIZE_MAX]
        · refine ih (p.drop LYB_SIZE_MAX) ?_ c hc
          simp only [List.length_drop]
          have : LYB_SIZE_MAX * (n + 1) = LYB_SIZE_MAX * n + LYB_SIZE_MAX :=
            Nat.mul_succ _ _
          omega

/-- With enough cut budget, one single chunk exactly when the payload
fits `LYB_SIZE_MAX`. -/
theorem splitChunksGo_singleton : ∀ (n : Nat) (p : List Nat),
    p.length ≤ LYB_SIZE_MAX * n + LYB_SIZE_MAX →
    ((splitChunksGo n p).length = 1 ↔ p.length ≤ LYB_SIZE_MAX) := by
  intro n
  induction n with
  | zero =>
      intro p hp
      simp [splitChunksGo]
      simpa using hp
  | succ n ih =>
      intro p hp
      by_cases h : p.length ≤ LYB_SIZE_MAX
      · simp [splitChunksGo, h]
      · have hne := splitChunksGo_ne_nil n (p.drop LYB_SIZE_MAX)
        simp [splitChunksGo, h]
        intro habs
        exact hne habs

/-- The cut budget `p.length` used by `splitChunks` is always enough. -/
theorem splitChunks_budget (p : List Nat) :
    p.length ≤ LYB_SIZE_MAX * p.length + LYB_SIZE_MAX := by
  have h : p.length ≤ 255 * p.length + 255 := by omega
  simpa [LYB_SIZE_MAX] using h

/-- C5: every encoded subtree frame begins with exactly one length byte
and one inner-chunk-count byte (`LYB_META_BYTES = LYB_SIZE_BYTES +
LYB_INCHUNK_BYTES = 2`), each a single byte so a chunk's payload length
and a subtree's inner-chunk count are each capped at `255 = 2^8 - 1`
(`LYB_SIZE_MAX`, `LYB_INCHUNK_MAX`); the chunks are physically
sequential and concatenate back to the payload, each chunk holds at most
`LYB_SIZE_MAX` bytes, a payload needs more than one chunk exactly when
it exceeds `LYB_SIZE_MAX`, and the frame's two leading metadata bytes
are the first chunk's length and the number of chunk boundaries crossed
(the chunk count minus one). -/
theorem lyb_meta_chunking (p : List Nat) :
    LYB_META_BYTES = LYB_SIZE_BYTES + LYB_INCHUNK_BYTES ∧
    LYB_META_BYTES = 2 ∧
    LYB_SIZE_MAX = 2 ^ 8 - 1 ∧
    LYB_INCHUNK_MAX = 2 ^ 8 - 1 ∧
    (splitChunks p).join = p ∧
    (∀ c ∈ splitChunks p, c.length ≤ LYB_SIZE_MAX) ∧
    ((splitChunks p).length = 1 ↔ p.length ≤ LYB_SIZE_MAX) ∧
    (writeChunked p).take LYB_META_BYTES =
      [((splitChunks p).headI).length, (splitChunks p).length - 1] := by
  refine ⟨by simp [LYB_META_BYTES, LYB_SIZE_BYTES, LYB_INCHUNK_BYTES], rfl, rfl, rfl,
    splitChunksGo_join _ _,
    splitChunksGo_le _ _ (splitChunks_budget p),
    splitChunksGo_singleton _ _ (splitChunks_budget p), ?_⟩
  rcases hsc : splitChunks p with _ | ⟨c, cs⟩
  · exact absurd hsc (splitChunksGo_ne_nil _ _)
  · simp [writeChunked, hsc, LYB_META_BYTES, LYB_SIZE_BYTES, LYB_INCHUNK_BYTES]

/-- Witness for C5 at the 3-byte payload `[1, 2, 3]`: it forms a single
chunk of length at most `LYB_SIZE_MAX`. -/
theorem lyb_meta_chunking_witness :
    [1, 2, 3] ∈ splitChunks [1, 2, 3] ∧ ([1, 2, 3] : List Nat).length ≤ LYB_SIZE_MAX :=
  ⟨by decide, (lyb_meta_chunking [1, 2, 3]).2.2.2.2.2.1 [1, 2, 3] (by decide)⟩


/-!
## Round trip of the LYB document encoding

The LYB printer and parser themselves (`printer_lyb.c`, `parser_lyb.c`)
are outside this repository slice; the codec below is modelled from the
spec's wire layout over the constants of `lyb.h`:

* the document starts with the format version byte (`LYB_VERSION_NUM`,
  checked by the decoder against `LYB_VERSION_MASK`; unknown versions
  are rejected), followed by the module table — the
  `(module-name, revision)` entries in first-encountered order,
  terminated by a zero-length sentinel — which the decoder loads before
  interpreting any node data;
* each node identity is a hash sequence: its first byte is the hash at
  the node's collision id, whose unary marker position tells the
  decoder, per the marker-bit continuation rule, how many further
  identity bytes follow (one per lower collision id down to 0, each
  built by `lyb_hash_byte`, the last carrying the top bit);
* every subtree is a chunked frame `[length:1][inner-chunk-count:1]`
  plus payload via `writeChunked`; the payload is the identity bytes,
  the length-prefixed value, the length-prefixed metadata list, then
  the children's frames in order, strictly bounded by the payload.

The decoder reads frames back with a fuel argument bounding the
recursion.  Trees and their sibling lists are a mutual inductive pair
(`LybForest` is the list of siblings, in order).
-/

/-- `LYB_VERSION_NUM` of `lyb.h`: the current LYB format version
byte. -/
def LYB_VERSION_NUM : Nat := 0x10

/-- `LYB_VERSION_MASK` of `lyb.h`: the version mask of the header
byte. -/
def LYB_VERSION_MASK : Nat := 0x10

mutual

/-- A decoded data node: its identity as the sequence of truncated
structural hashes (front = the hash at the node's own collision id,
last = the hash at collision id 0), value bytes, metadata (name byte
and value bytes each), and children. -/
inductive LybNode where
  | mk (hashes : List Nat) (value : List Nat) (meta : List (Nat × List Nat))
      (children : LybForest)

/-- A sibling list of data nodes, in order. -/
inductive LybForest where
  | nil
  | cons (t : LybNode) (ts : LybForest)

end

deriving instance DecidableEq for LybNode, LybForest

/-- Modelled from the spec: the identity bytes — one `lyb_hash_byte`
per collision id, starting at `c` and descending to collision id 0. -/
def encodeIdentGo : Nat → List Nat → List Nat
  | _, [] => []
  | c, h :: hs => lyb_hash_byte c h :: encodeIdentGo (c - 1) hs

/-- The identity bytes of a node whose truncated-hash sequence is `hs`:
the first byte carries the node's collision id `hs.length - 1`. -/
def encodeIdent (hs : List Nat) : List Nat :=
  encodeIdentGo (hs.length - 1) hs

/-- The collision-id search of the parser: the first `i` (from `i0`,
within `fuel` steps) whose marker bit `LYB_HASH_COLLISION_ID >> i` is
set in `b` — the loop
`for (i = 0; !(hash[0] & (LYB_HASH_COLLISION_ID >> i)); ++i)`. -/
def firstMarkerGo (b : Nat) : Nat → Nat → Option Nat
  | 0, _ => none
  | fuel + 1, i =>
      if b &&& (LYB_HASH_COLLISION_ID >>> i) ≠ 0 then some i
      else firstMarkerGo b fuel (i + 1)

/-- The collision id announced by the first identity byte: the position
of its leading marker bit, if any within the 8-bit hash width. -/
def firstMarker (b : Nat) : Option Nat :=
  firstMarkerGo b 8 0

/-- Strip the unary markers from identity bytes read at descending
collision ids, recovering the truncated hashes. -/
def decodeIdentBytes : Nat → List Nat → List Nat
  | _, [] => []
  | c, b :: bs => (b % 2 ^ (7 - c)) :: decodeIdentBytes (c - 1) bs

/-- Read one node identity: the first byte's marker-bit position gives
the collision id `c`, hence exactly `c` further identity bytes follow
(the marker-bit continuation rule); the markers are stripped back
off. -/
def readIdent (p : List Nat) : Option (List Nat × List Nat) :=
  match p with
  | [] => none
  | b0 :: rest =>
      match firstMarker b0 with
      | none => none
      | some c =>
          if rest.length < c then none
          else some (decodeIdentBytes c (b0 :: rest.take c), rest.drop c)

/-- One module-table entry: length-prefixed module name, then
length-prefixed revision. -/
def encodeModEntry (m : List Nat × List Nat) : List Nat :=
  m.1.length :: (m.1 ++ m.2.length :: m.2)

/-- Modelled from the spec: the module table — each referenced module
once, in order, terminated by a zero-length sentinel. -/
def encodeModTable (ms : List (List Nat × List Nat)) : List Nat :=
  (ms.map encodeModEntry).join ++ [0]

/-- Read the module table up to its sentinel; `fuel` bounds the number
of entries. -/
def readModTable : Nat → List Nat → Option (List (List Nat × List Nat) × List Nat)
  | _, [] => none
  | _, 0 :: rest => some ([], rest)
  | 0, _ :: _ => none
  | fuel + 1, nlen :: rest =>
      if rest.length < nlen then none
      else
        match rest.drop nlen with
        | [] => none
        | rlen :: rest2 =>
            if rest2.length < rlen then none
            else
              match readModTable fuel (rest2.drop rlen) with
              | none => none
              | some (ms, r) => some ((rest.take nlen, rest2.take rlen) :: ms, r)

/-- One encoded metadata entry: name byte, value length byte, value. -/
def encodeMetaEntry (m : Nat × List Nat) : List Nat :=
  m.1 :: m.2.length :: m.2

/-- The encoded metadata list: count byte, then the entries. -/
def encodeMetaList (ms : List (Nat × List Nat)) : List Nat :=
  ms.length :: (ms.map encodeMetaEntry).join

/-- Modelled from the spec: the encoding of a sibling list — each node's
subtree frame (`writeChunked` over its payload: identity bytes,
length-prefixed value, metadata list, children's frames), physically
sequential. -/
def LybForest.encode : LybForest → List Nat
  | .nil => []
  | .cons (.mk hashes value ms cs) ts =>
      writeChunked (encodeIdent hashes ++
        (value.length :: (value ++ encodeMetaList ms ++ cs.encode))) ++ ts.encode

/-- The payload of one node's subtree frame: identity bytes,
length-prefixed value, metadata list, children's frames. -/
def LybNode.payload : LybNode → List Nat
  | .mk hashes value ms cs =>
      encodeIdent hashes ++
        (value.length :: (value ++ encodeMetaList ms ++ cs.encode))

/-- Modelled from the spec: the encoding of one node's subtree — its
payload in a chunked frame. -/
def LybNode.encode (t : LybNode) : List Nat :=
  writeChunked t.payload

/-- Read `n` continuation chunks, each length-prefixed, concatenating
their contents. -/
def readConts : Nat → List Nat → Option (List Nat × List Nat)
  | 0, b => some ([], b)
  | n + 1, b =>
      match b with
      | [] => none
      | len :: rest =>
          if rest.length < len then none
          else
            match readConts n (rest.drop len) with
            | none => none
            | some (cs, r) => some (rest.take len ++ cs, r)

/-- Read one chunked frame: length byte, inner-chunk-count byte, first
chunk, continuation chunks; returns the reassembled payload and the
remaining bytes. -/
def readChunked (b : List Nat) : Option (List Nat × List Nat) :=
  match b with
  | len :: cnt :: rest =>
      if rest.length < len then none
      else
        match readConts cnt (rest.drop len) with
        | none => none
        | some (cs, r) => some (rest.take len ++ cs, r)
  | _ => none

/-- Read a length-prefixed byte string. -/
def readValue (p : List Nat) : Option (List Nat × List Nat) :=
  match p with
  | n :: rest => if rest.length < n then none else some (rest.take n, rest.drop n)
  | [] => none

/-- Read `n` metadata entries. -/
def readMetaEntries : Nat → List Nat → Option (List (Nat × List Nat) × List Nat)
  | 0, p => some ([], p)
  | n + 1, p =>
      match p with
      | name :: len :: rest =>
          if rest.length < len then none
          else
            match readMetaEntries n (rest.drop len) with
            | none => none
            | some (ms, r) => some ((name, rest.take len) :: ms, r)
      | _ => none

/-- Read a count-prefixed metadata list. -/
def readMetaList (p : List Nat) : Option (List (Nat × List Nat) × List Nat) :=
  match p with
  | n :: rest => readMetaEntries n rest
  | [] => none

/-- Modelled from the spec: decode a sibling list from `b`, consuming
all of it; `fuel` bounds the recursion. -/
def decodeForest : Nat → List Nat → Option LybForest
  | _, [] => some LybForest.nil
  | 0, _ :: _ => none
  | fuel + 1, x :: xs =>
      match readChunked (x :: xs) with
      | none => none
      | some (p, rest) =>
          match readIdent p with
          | none => none
          | some (hs, p1) =>
              match readValue p1 with
              | none => none
              | some (v, p2) =>
                  match readMetaList p2 with
                  | none => none
                  | some (ms, p3) =>
                      match decodeForest fuel p3, decodeForest fuel rest with
                      | some cs, some sib =>
                          some (LybForest.cons (LybNode.mk hs v ms cs) sib)
                      | _, _ => none

/-- Modelled from the spec: a whole LYB document — the format version
byte, the module table, then the top-level subtree. -/
def lyb_encode (mods : List (List Nat × List Nat)) (T : LybNode) : List Nat :=
  LYB_VERSION_NUM :: (encodeModTable mods ++ LybNode.encode T)

/-- Modelled from the spec: decode a whole LYB document — reject an
unknown version byte, load the module table before any node data, then
decode the top-level subtree, requiring the input to be consumed
exactly. -/
def lyb_decode (b : List Nat) :
    Option (List (List Nat × List Nat) × LybNode) :=
  match b with
  | [] => none
  | ver :: rest =>
      if ver &&& LYB_VERSION_MASK ≠ LYB_VERSION_NUM then none
      else
        match readModTable rest.length rest with
        | none => none
        | some (mods, r) =>
            match decodeForest (r.length + 1) r with
            | some (LybForest.cons t LybForest.nil) => some (mods, t)
            | _ => none

/-- Number of nodes in a sibling list (with all descendants); the
decoding fuel measure. -/
def LybForest.fsize : LybForest → Nat
  | .nil => 0
  | .cons (.mk _ _ _ cs) ts => cs.fsize + 1 + ts.fsize

/-- Number of nodes in one node's subtree. -/
def LybNode.fsize : LybNode → Nat
  | .mk _ _ _ cs => cs.fsize + 1

/-- Well-formedness of a truncated-hash sequence read at descending
collision ids: each hash fits its shrunken field. -/
def identWfGo : Nat → List Nat → Bool
  | _, [] => true
  | c, h :: hs => decide (h < 2 ^ (7 - c)) && identWfGo (c - 1) hs

/-- Well-formedness of a sibling list for the byte-oriented wire format:
every identity is a nonempty hash sequence of at most `LYB_HASH_BITS`
hashes each fitting its shrunken field, every value byte, metadata name
and metadata byte fits one byte, every value, metadata list and
metadata value fits a one-byte length, and every frame needs at most
256 chunks so its inner-chunk count fits `LYB_INCHUNK_MAX`. -/
def LybForest.wfb : LybForest → Bool
  | .nil => true
  | .cons (.mk hashes value ms cs) ts =>
      decide (1 ≤ hashes.length) &&
      decide (hashes.length ≤ LYB_HASH_BITS) &&
      identWfGo (hashes.length - 1) hashes &&
      decide (value.length ≤ LYB_SIZE_MAX) &&
      value.all (fun x => decide (x < 256)) &&
      decide (ms.length ≤ LYB_INCHUNK_MAX) &&
      ms.all (fun m => decide (m.1 < 256) && decide (m.2.length ≤ LYB_SIZE_MAX) &&
        m.2.all (fun x => decide (x < 256))) &&
      decide ((splitChunks (LybNode.payload (.mk hashes value ms cs))).length ≤
        LYB_INCHUNK_MAX + 1) &&
      cs.wfb && ts.wfb

/-- Well-formedness of one node's subtree. -/
def LybNode.wfb (t : LybNode) : Bool :=
  LybForest.wfb (LybForest.cons t LybForest.nil)

/-- Well-formedness of a module table: every module name is nonempty
(so it is distinguishable from the sentinel), and names, revisions and
their lengths fit the byte format. -/
def modTableWfb (ms : List (List Nat × List Nat)) : Bool :=
  ms.all (fun m => decide (1 ≤ m.1.length) && decide (m.1.length ≤ 255) &&
    m.1.all (fun x => decide (x < 256)) &&
    decide (m.2.length ≤ 255) && m.2.all (fun x => decide (x < 256)))

/-- The identity bytes count the hash sequence. -/
theorem encodeIdentGo_length : ∀ (c : Nat) (hs : List Nat),
    (encodeIdentGo c hs).length = hs.length := by
  intro c hs
  induction hs generalizing c with
  | nil => simp [encodeIdentGo]
  | cons h hs ih => simp [encodeIdentGo, ih]

/-- The hash byte has its own marker bit set. -/
theorem lyb_hash_byte_marker_self (c h : Nat) (hc : c < 8) :
    lyb_hash_byte c h &&& (LYB_HASH_COLLISION_ID >>> c) ≠ 0 := by
  have hm : h % 2 ^ (7 - c) < 2 ^ (7 - c) :=
    Nat.mod_lt _ (Nat.pos_pow_of_pos _ (by norm_num))
  rw [lyb_hash_marker_shift c hc, lyb_hash_byte_eq c h hc, Nat.and_two_pow,
    Nat.testBit_two_pow_add_eq, Nat.testBit_lt_two_pow hm]
  simp

/-- Bytes at deeper collision ids have the shallower markers clear. -/
theorem lyb_hash_byte_marker_clear (c h j : Nat) (hc : c < 8) (hj : j < c) :
    lyb_hash_byte c h &&& (LYB_HASH_COLLISION_ID >>> j) = 0 := by
  have hlt : lyb_hash_byte c h < 2 ^ (7 - c + 1) := by
    rw [lyb_hash_byte_eq c h hc]
    have hm : h % 2 ^ (7 - c) < 2 ^ (7 - c) :=
      Nat.mod_lt _ (Nat.pos_pow_of_pos _ (by norm_num))
    have := Nat.pow_succ 2 (7 - c)
    omega
  have hbit : (lyb_hash_byte c h).testBit (7 - j) = false :=
    Nat.testBit_lt_two_pow (lt_of_lt_of_le hlt
      (Nat.pow_le_pow_right (by norm_num) (by omega)))
  rw [lyb_hash_marker_shift j (by omega), Nat.and_two_pow, hbit]
  simp

/-- The collision-id search finds the first set marker. -/
theorem firstMarkerGo_spec : ∀ (fuel i c b : Nat), i ≤ c → c < i + fuel →
    (∀ j, i ≤ j → j < c → b &&& (LYB_HASH_COLLISION_ID >>> j) = 0) →
    b &&& (LYB_HASH_COLLISION_ID >>> c) ≠ 0 →
    firstMarkerGo b fuel i = some c := by
  intro fuel
  induction fuel with
  | zero => intro i c b h1 h2 _ _; omega
  | succ fuel ih =>
      intro i c b h1 h2 hclear hset
      rcases Nat.eq_or_lt_of_le h1 with rfl | hlt
      · simp [firstMarkerGo, hset]
      · have hz : b &&& (LYB_HASH_COLLISION_ID >>> i) = 0 := hclear i le_rfl hlt
        simp only [firstMarkerGo, hz, ne_eq, not_true_eq_false, if_false]
        exact ih (i + 1) c b hlt (by omega)
          (fun j hj1 hj2 => hclear j (by omega) hj2) hset

/-- The first identity byte announces the node's collision id. -/
theorem firstMarker_hash (c h : Nat) (hc : c < 8) :
    firstMarker (lyb_hash_byte c h) = some c :=
  firstMarkerGo_spec 8 0 c _ (Nat.zero_le _) (by omega)
    (fun j _ hj => lyb_hash_byte_marker_clear c h j hc hj)
    (lyb_hash_byte_marker_self c h hc)

/-- Stripping the markers undoes the identity-byte construction. -/
theorem decodeIdentBytes_encode : ∀ (hs : List Nat) (c : Nat), c < 8 →
    identWfGo c hs = true → decodeIdentBytes c (encodeIdentGo c hs) = hs := by
  intro hs
  induction hs with
  | nil => intro c _ _; simp [encodeIdentGo, decodeIdentBytes]
  | cons h hs ih =>
      intro c hc hwf
      simp only [identWfGo, Bool.and_eq_true, decide_eq_true_eq] at hwf
      have hb : lyb_hash_byte c h % 2 ^ (7 - c) = h := by
        rw [lyb_hash_byte_eq c h hc, Nat.add_mod_left, Nat.mod_mod_of_dvd _ dvd_rfl,
          Nat.mod_eq_of_lt hwf.1]
      simp [encodeIdentGo, decodeIdentBytes, hb, ih (c - 1) (by omega) hwf.2]

/-- Reading back an encoded node identity recovers the hash sequence per
the marker-bit continuation rule. -/
theorem readIdent_encode (hs rest : List Nat) (hne : 1 ≤ hs.length)
    (hlen : hs.length ≤ LYB_HASH_BITS)
    (hwf : identWfGo (hs.length - 1) hs = true) :
    readIdent (encodeIdent hs ++ rest) = some (hs, rest) := by
  rcases hs with _ | ⟨h, hs⟩
  · simp at hne
  · have hc : hs.length < 8 := by
      simp [LYB_HASH_BITS] at hlen
      omega
    simp only [List.length_cons, Nat.add_sub_cancel] at hwf
    have hei : encodeIdent (h :: hs) =
        lyb_hash_byte hs.length h :: encodeIdentGo (hs.length - 1) hs := by
      simp [encodeIdent, encodeIdentGo]
    have htl : (encodeIdentGo (hs.length - 1) hs).length = hs.length :=
      encodeIdentGo_length _ _
    have hnlt : ¬(encodeIdentGo (hs.length - 1) hs ++ rest).length < hs.length := by
      simp [List.length_append, htl]
    have htake : (encodeIdentGo (hs.length - 1) hs ++ rest).take hs.length =
        encodeIdentGo (hs.length - 1) hs := List.take_left' htl
    have hdrop : (encodeIdentGo (hs.length - 1) hs ++ rest).drop hs.length = rest :=
      List.drop_left' htl
    have hdec : decodeIdentBytes hs.length
        (lyb_hash_byte hs.length h :: encodeIdentGo (hs.length - 1) hs) = h :: hs := by
      have h2 := decodeIdentBytes_encode (h :: hs) hs.length hc hwf
      simpa [encodeIdentGo] using h2
    rw [hei]
    simp only [List.cons_append, readIdent, firstMarker_hash hs.length h hc,
      hnlt, if_false, htake, hdrop, hdec]

/-- Reading back the module table recovers the entries and stops at the
sentinel. -/
theorem readModTable_encode : ∀ (ms : List (List Nat × List Nat)) (fuel : Nat)
    (rest : List Nat), ms.length ≤ fuel → (∀ m ∈ ms, 1 ≤ m.1.length) →
    readModTable fuel (encodeModTable ms ++ rest) = some (ms, rest) := by
  intro ms
  induction ms with
  | nil =>
      intro fuel rest _ _
      cases fuel <;> simp [encodeModTable, readModTable]
  | cons m ms ih =>
      intro fuel rest hfuel hnames
      rcases m with ⟨mn, mr⟩
      rcases fuel with _ | fuel
      · simp at hfuel
      · have hm1 : 1 ≤ mn.length := hnames (mn, mr) (by simp)
        obtain ⟨k, hk⟩ : ∃ k, mn.length = k + 1 := ⟨mn.length - 1, by omega⟩
        have hassoc : encodeModTable ((mn, mr) :: ms) ++ rest =
            mn.length :: (mn ++ (mr.length :: (mr ++ (encodeModTable ms ++ rest)))) := by
          simp [encodeModTable, encodeModEntry, List.append_assoc]
        have hnlt1 : ¬(mn ++ (mr.length :: (mr ++ (encodeModTable ms ++ rest)))).length
            < mn.length := by
          simp [List.length_append]
        have hnlt2 : ¬(mr ++ (encodeModTable ms ++ rest)).length < mr.length := by
          simp [List.length_append]
        rw [hassoc, hk]
        simp only [readModTable, ← hk, hnlt1, if_false, List.take_left, List.drop_left,
          hnlt2, List.take_left, List.drop_left,
          ih fuel rest (by simpa using hfuel) (fun x hx => hnames x (by simp [hx]))]

/-- The module table has at least one byte per entry. -/
theorem modTable_length_ge (ms : List (List Nat × List Nat)) :
    ms.length ≤ (encodeModTable ms).length := by
  induction ms with
  | nil => simp [encodeModTable]
  | cons m ms ih =>
      simp only [encodeModTable, List.join, List.map_cons, List.flatten_cons,
        List.append_assoc, List.length_append, List.length_cons, encodeModEntry] at ih ⊢
      omega

/-- Reading back `n` length-prefixed continuation chunks recovers their
concatenation and leaves the suffix. -/
theorem readConts_encode (cs : List (List Nat)) (rest : List Nat) :
    readConts cs.length ((cs.map fun c => c.length :: c).join ++ rest) =
      some (cs.join, rest) := by
  induction cs with
  | nil => simp [readConts]
  | cons c cs ih =>
      have hnlt : ¬(c ++ ((cs.map fun c2 => c2.length :: c2).join ++ rest)).length
          < c.length := by
        simp [List.length_append]
      simp only [List.map_cons, List.join_cons, List.length_cons, List.cons_append,
        List.append_assoc, readConts, hnlt, if_false, List.take_left, List.drop_left, ih]

/-- Reading back a chunked frame recovers the payload and leaves the
suffix. -/
theorem readChunked_writeChunked (p rest : List Nat) :
    readChunked (writeChunked p ++ rest) = some (p, rest) := by
  rcases hsc : splitChunks p with _ | ⟨c, cs⟩
  · exact absurd hsc (splitChunksGo_ne_nil _ _)
  · have hjoin : c ++ cs.join = p := by
      have h := splitChunksGo_join p.length p
      rw [show splitChunksGo p.length p = splitChunks p from rfl, hsc] at h
      simpa using h
    have hnlt : ¬(c ++ (((cs.map fun c2 => c2.length :: c2).join) ++ rest)).length
        < c.length := by
      simp [List.length_append]
    simp only [writeChunked, hsc, List.cons_append, List.append_assoc, readChunked,
      hnlt, if_false, List.take_left, List.drop_left, readConts_encode, hjoin]

/-- Reading back a length-prefixed byte string recovers it. -/
theorem readValue_encode (v rest : List Nat) :
    readValue (v.length :: (v ++ rest)) = some (v, rest) := by
  have hnlt : ¬(v ++ rest).length < v.length := by simp [List.length_append]
  simp [readValue, hnlt, List.take_left, List.drop_left]

/-- Reading back `n` encoded metadata entries recovers them. -/
theorem readMetaEntries_encode (ms : List (Nat × List Nat)) (rest : List Nat) :
    readMetaEntries ms.length ((ms.map encodeMetaEntry).join ++ rest) =
      some (ms, rest) := by
  induction ms with
  | nil => simp [readMetaEntries]
  | cons m ms ih =>
      have hnlt : ¬(m.2 ++ ((ms.map encodeMetaEntry).join ++ rest)).length
          < m.2.length := by
        simp [List.length_append]
      simp only [List.map_cons, List.join_cons, List.length_cons, encodeMetaEntry,
        List.cons_append, List.append_assoc, readMetaEntries, hnlt, if_false,
        List.take_left, List.drop_left, ih]

/-- Reading back an encoded metadata list recovers it. -/
theorem readMetaList_encode (ms : List (Nat × List Nat)) (rest : List Nat) :
    readMetaList (encodeMetaList ms ++ rest) = some (ms, rest) := by
  simp [encodeMetaList, readMetaList, List.cons_append, readMetaEntries_encode]

/-- The sibling-list encoding in terms of the node frame. -/
theorem LybForest.encode_cons (t : LybNode) (ts : LybForest) :
    (LybForest.cons t ts).encode = writeChunked t.payload ++ ts.encode := by
  cases t
  simp [LybForest.encode, LybNode.payload]

/-- The sibling-list size in terms of the node size. -/
theorem LybForest.fsize_cons (t : LybNode) (ts : LybForest) :
    (LybForest.cons t ts).fsize = t.fsize + ts.fsize := by
  cases t
  simp [LybForest.fsize, LybNode.fsize]

/-- A chunked frame always starts with its two metadata bytes. -/
theorem writeChunked_shape (p : List Nat) :
    ∃ a b tail, writeChunked p = a :: b :: tail := by
  rcases hsc : splitChunks p with _ | ⟨c, cs⟩
  · exact absurd hsc (splitChunksGo_ne_nil _ _)
  · exact ⟨c.length, cs.length, c ++ (cs.map fun c2 => c2.length :: c2).join,
      by simp [writeChunked, hsc]⟩

/-- Every node counts at least itself. -/
theorem LybNode.fsize_pos (t : LybNode) : 1 ≤ t.fsize := by
  cases t
  simp [LybNode.fsize]

/-- Decoding the encoding of a well-formed sibling list with enough fuel
recovers it exactly. -/
theorem decodeForest_encode : ∀ (fuel : Nat) (F : LybForest),
    LybForest.wfb F = true → F.fsize < fuel →
    decodeForest fuel F.encode = some F := by
  intro fuel
  induction fuel with
  | zero => intro F _ h; exact absurd h (Nat.not_lt_zero _)
  | succ fuel ih =>
      intro F hwf h
      cases F with
      | nil => simp [LybForest.encode, decodeForest]
      | cons t ts =>
          rcases t with ⟨hs, v, ms, cs⟩
          rw [LybForest.fsize_cons] at h
          have hn : (LybNode.mk hs v ms cs).fsize = cs.fsize + 1 := rfl
          have hcs : cs.fsize < fuel := by omega
          have hts : ts.fsize < fuel := by
            have := LybNode.fsize_pos (LybNode.mk hs v ms cs)
            omega
          simp only [LybForest.wfb, Bool.and_eq_true, decide_eq_true_eq] at hwf
          obtain ⟨⟨⟨⟨⟨⟨⟨⟨⟨h1, h2⟩, h3⟩, h4⟩, h5⟩, h6⟩, h7⟩, h8⟩, hcswf⟩, htswf⟩ := hwf
          have hrc := readChunked_writeChunked
            (LybNode.payload (LybNode.mk hs v ms cs)) (LybForest.encode ts)
          have hpl : LybNode.payload (LybNode.mk hs v ms cs) =
              encodeIdent hs ++ (v.length :: (v ++ (encodeMetaList ms ++ cs.encode))) := by
            simp [LybNode.payload, List.append_assoc]
          have hid : readIdent (encodeIdent hs ++
              (v.length :: (v ++ (encodeMetaList ms ++ cs.encode)))) =
              some (hs, v.length :: (v ++ (encodeMetaList ms ++ cs.encode))) :=
            readIdent_encode hs _ h1 h2 h3
          obtain ⟨a, b2, tail, hw⟩ :=
            writeChunked_shape (LybNode.payload (LybNode.mk hs v ms cs))
          rw [LybForest.encode_cons, hw]
          rw [hw] at hrc
          simp only [List.cons_append] at hrc ⊢
          simp only [decodeForest, hrc, hpl, hid, readValue_encode, readMetaList_encode,
            ih cs hcswf hcs, ih ts htswf hts]

/-- Length-prefixing continuation chunks only adds bytes. -/
theorem chunkBlocks_length (cs : List (List Nat)) :
    cs.join.length ≤ ((cs.map fun c => c.length :: c).join).length := by
  induction cs with
  | nil => simp
  | cons c cs ih =>
      simp only [List.join] at ih
      simp only [List.map_cons, List.join_cons, List.length_append, List.length_cons]
      omega

/-- The chunks of a payload concatenate back to it, cons form. -/
theorem splitChunks_join_cons (p c : List Nat) (cs : List (List Nat))
    (hsc : splitChunks p = c :: cs) : c ++ cs.join = p := by
  have h := splitChunksGo_join p.length p
  rw [show splitChunksGo p.length p = splitChunks p from rfl, hsc] at h
  simpa using h

/-- A chunked frame is at least two bytes longer than its payload. -/
theorem writeChunked_length_ge (p : List Nat) :
    p.length + 2 ≤ (writeChunked p).length := by
  rcases hsc : splitChunks p with _ | ⟨c, cs⟩
  · exact absurd hsc (splitChunksGo_ne_nil _ _)
  · have hb := chunkBlocks_length cs
    have hp : p.length = c.length + cs.join.length := by
      rw [← splitChunks_join_cons p c cs hsc]
      simp [List.length_append]
    simp only [List.join] at hb hp
    simp only [writeChunked, hsc, List.length_cons, List.length_append]
    simp only [List.join] at hb hp ⊢
    omega

/-- A sibling list never outweighs its encoding: the node count is at
most the encoded byte count (each node's frame spends at least its two
metadata bytes on it). -/
theorem forest_fsize_le_encode : ∀ (n : Nat) (F : LybForest), F.fsize ≤ n →
    F.fsize ≤ F.encode.length := by
  intro n
  induction n using Nat.strong_induction_on with
  | _ n ih =>
      intro F hF
      cases F with
      | nil => simp [LybForest.fsize, LybForest.encode]
      | cons t ts =>
          rcases t with ⟨hs, v, ms, cs⟩
          have hfs : (LybNode.mk hs v ms cs).fsize = cs.fsize + 1 := rfl
          have hFc : cs.fsize + 1 + ts.fsize ≤ n := by
            rw [LybForest.fsize_cons, hfs] at hF
            omega
          have hwl := writeChunked_length_ge (LybNode.payload (LybNode.mk hs v ms cs))
          have hml : 1 ≤ (encodeMetaList ms).length := by
            simp [encodeMetaList]
          have hpl : cs.encode.length + 2 ≤
              (LybNode.payload (LybNode.mk hs v ms cs)).length := by
            simp only [LybNode.payload, List.length_append, List.length_cons]
            omega
          have hcs : cs.fsize ≤ cs.encode.length := ih (n - 1) (by omega) cs (by omega)
          have hts : ts.fsize ≤ ts.encode.length := ih (n - 1) (by omega) ts (by omega)
          rw [LybForest.fsize_cons, hfs, LybForest.encode_cons]
          simp only [List.length_append]
          omega

/-- C6: decoding the encoding of any well-formed document — module
table plus tree — yields it back: the version byte is accepted, the
module table is recovered in order, and the tree is rebuilt with node
identities (their full hash sequences), values and metadata all
preserved and the order of siblings preserved at every level; the
encoding is consumed exactly. -/
theorem lyb_decode_encode (mods : List (List Nat × List Nat)) (T : LybNode)
    (hmods : modTableWfb mods = true) (hwf : LybNode.wfb T = true) :
    lyb_decode (lyb_encode mods T) = some (mods, T) := by
  have hver : ¬LYB_VERSION_NUM &&& LYB_VERSION_MASK ≠ LYB_VERSION_NUM := by decide
  have hnames : ∀ m ∈ mods, 1 ≤ m.1.length := by
    intro m hm
    have h1 := List.all_eq_true.mp hmods m hm
    simp only [Bool.and_eq_true, decide_eq_true_eq] at h1
    exact h1.1.1.1.1
  have hfuel : mods.length ≤ (encodeModTable mods ++ LybNode.encode T).length := by
    have := modTable_length_ge mods
    simp only [List.length_append]
    omega
  have hmt := readModTable_encode mods
    ((encodeModTable mods ++ LybNode.encode T).length) (LybNode.encode T) hfuel hnames
  have hcons : LybForest.encode (LybForest.cons T LybForest.nil) = LybNode.encode T := by
    rw [LybForest.encode_cons]
    simp [LybForest.encode, LybNode.encode]
  have hfs0 : (LybForest.cons T LybForest.nil).fsize ≤ (LybNode.encode T).length := by
    have h1 := forest_fsize_le_encode ((LybForest.cons T LybForest.nil).fsize)
      (LybForest.cons T LybForest.nil) (le_refl _)
    rw [hcons] at h1
    exact h1
  have hd := decodeForest_encode ((LybNode.encode T).length + 1)
    (LybForest.cons T LybForest.nil) hwf (by omega)
  rw [hcons] at hd
  simp only [lyb_encode, lyb_decode, hver, if_false, hmt, hd]

/-- The concrete module table of the C6 witness: one module with a
3-byte name and a 3-byte revision. -/
def c6_mods : List (List Nat × List Nat) :=
  [([109, 111, 100], [114, 101, 118])]

/-- The concrete tree of the C6 witness: the root carries a plain
collision-id-0 identity, a value and two metadata entries; its child
carries a two-byte identity (collision id 1, so its first byte has the
top bit clear and the marker-bit continuation rule is exercised). -/
def c6_tree : LybNode :=
  LybNode.mk [85] [1, 2] [(3, [4]), (6, [])]
    (LybForest.cons (LybNode.mk [17, 99] [] [] LybForest.nil) LybForest.nil)

/-- Witness for C6: the concrete module table and tree are well-formed
and the document round-trips. -/
theorem lyb_decode_encode_witness :
    modTableWfb c6_mods = true ∧ LybNode.wfb c6_tree = true ∧
    lyb_decode (lyb_encode c6_mods c6_tree) = some (c6_mods, c6_tree) :=
  ⟨by decide, by decide, lyb_decode_encode c6_mods c6_tree (by decide) (by decide)⟩
